import Mathlib

/-!
Shallow embedding of the PeerJS file-share protocol core (src/src/App.tsx).

The source is a React component; the protocol core consists of

  * the four tagged message kinds (`Meta`, `Chunk`, `Eof`, `Ack`),
  * the receiver / acknowledgement handler installed by `wireConnection`
    (the `c.on("data", ...)` callback),
  * the sender pipeline `sendFile` together with the flow-control
    primitive `waitForAck` and the shared `busyRef` flag.

JavaScript numbers are modelled as exact natural numbers (all quantities
that occur are non-negative integers well below 2^53, and the claims do
not depend on floating-point rounding); `ArrayBuffer` payloads are byte
lists (`List Nat`); React `useState`/`useRef` cells become record fields,
with each call to the external progress reporter (`setSendProgress`,
`setRecvProgress`) additionally appended to an explicit log so that the
reported sequence can be spoken about.  Pure UI state (`status`, clipboard,
link) is not part of the protocol core and is omitted.  The asynchronous
interleaving of the `sendFile` coroutine with the inbound-message handler
is modelled as a small-step relation on a sender state.
-/

namespace FileShare

/-- Natural-number ceiling division, `(n + d - 1) / d`.  For `0 < d` this
agrees with JavaScript `Math.ceil(n / d)` as used at App.tsx line 79. -/
def ceilDiv (n d : Nat) : Nat := (n + d - 1) / d

/-- The `Meta` message type (App.tsx lines 4-10): the Transfer Descriptor. -/
structure Meta where
  name : String
  size : Nat
  mime : String
  chunkSize : Nat
deriving Repr, DecidableEq

/-- The four wire message kinds (App.tsx lines 4-15): Transfer Descriptor
(`meta`), Piece (`chunk`), End Marker (`eof`) and Acknowledgement (`ack`).
An acknowledgement index is an integer because the metadata acknowledgement
carries index `-1` (App.tsx line 83). -/
inductive Msg where
  | meta (m : Meta)
  | chunk (index : Nat) (payload : List Nat)
  | eof
  | ack (index : Int)
deriving Repr, DecidableEq

/-- Returns `true` exactly on Piece messages. -/
def Msg.isChunk : Msg → Bool
  | .chunk _ _ => true
  | _ => false

/-- State touched by the `wireConnection` data handler (App.tsx lines
28-33 for the refs, 74-115 for the handler): the receiver transfer state
(`metaRef`, `expectedChunks`, `receiveBuffers`, `receivedBytes`), the
receiver progress cell plus the log of values handed to the progress
reporter, the list of messages sent back on the connection (`outMsgs`),
the artifacts handed to the save collaborator (`saved`, one entry per
End Marker: buffer list, file name, mime type), and the sender-role
flow-control flag `busy` (`busyRef`), cleared by the `ack` branch. -/
structure RecvState where
  metaRef : Option Meta
  expectedChunks : Nat
  receiveBuffers : List (List Nat)
  receivedBytes : Nat
  recvProgress : Nat
  progressLog : List Nat
  outMsgs : List Msg
  saved : List (List (List Nat) × String × String)
  busy : Bool
deriving Repr, DecidableEq

/-- Initial receiver state: the `useRef`/`useState` initial values
(App.tsx lines 25, 29-33). -/
def initRecv : RecvState :=
  { metaRef := none, expectedChunks := 0, receiveBuffers := [],
    receivedBytes := 0, recvProgress := 0, progressLog := [],
    outMsgs := [], saved := [], busy := false }

/-- The `c.on("data", ...)` handler of `wireConnection` (App.tsx lines
74-115), translated branch by branch:

  * `meta` (lines 76-83): store the descriptor, set
    `expectedChunks := Math.ceil(size / chunkSize)`, clear the buffers and
    the byte counter, report progress 0, send `ack(-1)`;
  * `chunk` (lines 84-97): unconditionally push the payload and add its
    length; only if a descriptor is present, report
    `min(100, floor(receivedBytes * 100 / size))`; send `ack(index)`;
  * `eof` (lines 98-111): if no descriptor, return; otherwise hand
    `(receiveBuffers, name, mime)` to the save collaborator and report 100;
  * `ack` (lines 112-114): clear `busyRef`, ignoring the carried index. -/
def handleData (s : RecvState) (msg : Msg) : RecvState :=
  match msg with
  | .meta m =>
      { s with metaRef := some m,
               expectedChunks := ceilDiv m.size m.chunkSize,
               receiveBuffers := [],
               receivedBytes := 0,
               recvProgress := 0,
               progressLog := s.progressLog ++ [0],
               outMsgs := s.outMsgs ++ [.ack (-1)] }
  | .chunk i payload =>
      let bytes := s.receivedBytes + payload.length
      let s1 := { s with receiveBuffers := s.receiveBuffers ++ [payload],
                         receivedBytes := bytes }
      let s2 :=
        match s.metaRef with
        | some m =>
            { s1 with recvProgress := min 100 (bytes * 100 / m.size),
                      progressLog :=
                        s1.progressLog ++ [min 100 (bytes * 100 / m.size)] }
        | none => s1
      { s2 with outMsgs := s2.outMsgs ++ [.ack (i : Int)] }
  | .eof =>
      match s.metaRef with
      | none => s
      | some m =>
          { s with saved := s.saved ++ [(s.receiveBuffers, m.name, m.mime)],
                   recvProgress := 100,
                   progressLog := s.progressLog ++ [100] }
  | .ack _ => { s with busy := false }

/-- Feeding a list of inbound messages, in order, through the data handler. -/
def runReceiver (s : RecvState) (msgs : List Msg) : RecvState :=
  msgs.foldl handleData s

theorem handleData_meta (s : RecvState) (m : Meta) :
    handleData s (Msg.meta m) =
      { s with metaRef := some m,
               expectedChunks := ceilDiv m.size m.chunkSize,
               receiveBuffers := [],
               receivedBytes := 0,
               recvProgress := 0,
               progressLog := s.progressLog ++ [0],
               outMsgs := s.outMsgs ++ [.ack (-1)] } := rfl

theorem handleData_ack (s : RecvState) (i : Int) :
    handleData s (Msg.ack i) = { s with busy := false } := rfl

theorem handleData_eof_none (s : RecvState) (hm : s.metaRef = none) :
    handleData s Msg.eof = s := by
  show (match s.metaRef with
    | none => s
    | some m =>
        { s with saved := s.saved ++ [(s.receiveBuffers, m.name, m.mime)],
                 recvProgress := 100,
                 progressLog := s.progressLog ++ [100] }) = s
  rw [hm]

theorem handleData_eof_some (s : RecvState) (m : Meta)
    (hm : s.metaRef = some m) :
    handleData s Msg.eof =
      { s with saved := s.saved ++ [(s.receiveBuffers, m.name, m.mime)],
               recvProgress := 100,
               progressLog := s.progressLog ++ [100] } := by
  show (match s.metaRef with
    | none => s
    | some m' =>
        { s with saved := s.saved ++ [(s.receiveBuffers, m'.name, m'.mime)],
                 recvProgress := 100,
                 progressLog := s.progressLog ++ [100] }) = _
  rw [hm]

theorem handleData_chunk_none (s : RecvState) (i : Nat) (p : List Nat)
    (hm : s.metaRef = none) :
    handleData s (Msg.chunk i p) =
      { s with receiveBuffers := s.receiveBuffers ++ [p],
               receivedBytes := s.receivedBytes + p.length,
               outMsgs := s.outMsgs ++ [.ack (i : Int)] } := by
  rw [handleData, hm]

theorem handleData_chunk_some (s : RecvState) (m : Meta) (i : Nat)
    (p : List Nat) (hm : s.metaRef = some m) :
    handleData s (Msg.chunk i p) =
      { s with receiveBuffers := s.receiveBuffers ++ [p],
               receivedBytes := s.receivedBytes + p.length,
               recvProgress :=
                 min 100 ((s.receivedBytes + p.length) * 100 / m.size),
               progressLog := s.progressLog ++
                 [min 100 ((s.receivedBytes + p.length) * 100 / m.size)],
               outMsgs := s.outMsgs ++ [.ack (i : Int)] } := by
  rw [handleData, hm]

/-- The slices produced by the `sendFile` loop (App.tsx lines 143-151):
`file.slice(offset, offset + chunkSize)` for `offset = 0, P, 2P, ...`
while `offset < file.size`.  Written so that recursion terminates for
every `P`; for `0 < P` (the code uses the constant `16 * 1024`, line 35)
it satisfies the loop equation `sliceChunks_cons` below. -/
def sliceChunks (P : Nat) : List Nat → List (List Nat)
  | [] => []
  | a :: rest => (a :: rest.take (P - 1)) :: sliceChunks P (rest.drop (P - 1))
termination_by l => l.length
decreasing_by
  simp only [List.length_drop, List.length_cons]
  omega

theorem sliceChunks_cons (P : Nat) (hP : 0 < P) (a : Nat) (rest : List Nat) :
    sliceChunks P (a :: rest) =
      ((a :: rest).take P) :: sliceChunks P ((a :: rest).drop P) := by
  cases P with
  | zero => omega
  | succ n => simp [sliceChunks]

/-- Concatenating the slices restores the payload. -/
theorem sliceChunks_flatten (P : Nat) (l : List Nat) :
    (sliceChunks P l).flatten = l := by
  induction l using sliceChunks.induct P with
  | case1 => simp [sliceChunks]
  | case2 a rest ih =>
      simp only [sliceChunks, List.flatten_cons, ih, List.cons_append]
      rw [List.take_append_drop]

/-- The loop runs `ceil(size / P)` times: one Piece per slice. -/
theorem sliceChunks_length (P : Nat) (hP : 0 < P) (l : List Nat) :
    (sliceChunks P l).length = ceilDiv l.length P := by
  induction l using sliceChunks.induct P with
  | case1 =>
      simp only [sliceChunks, List.length_nil, ceilDiv]
      exact (Nat.div_eq_of_lt (by omega)).symm
  | case2 a rest ih =>
      simp only [sliceChunks, List.length_cons, ih, List.length_drop,
        ceilDiv]
      rcases le_or_lt (P - 1) rest.length with h | h
      · have h1 : rest.length - (P - 1) + P - 1 = rest.length := by omega
        have h2 : rest.length + 1 + P - 1 = rest.length + P := by omega
        rw [h1, h2, Nat.add_div_right _ hP]
      · have h1 : rest.length - (P - 1) = 0 := by omega
        have h2 : rest.length + 1 + P - 1 = rest.length + P := by omega
        rw [h1, h2]
        have h3 : (0 + P - 1) / P = 0 := by
          apply Nat.div_eq_of_lt
          omega
        have h4 : (rest.length + P) / P = rest.length / P + 1 :=
          Nat.add_div_right _ hP
        have h5 : rest.length / P = 0 := Nat.div_eq_of_lt (by omega)
        omega

theorem ceilDiv_eq (n P : Nat) : ceilDiv n P = n ⌈/⌉ P := rfl

theorem ceilDiv_le_iff (n P c : Nat) (hP : 0 < P) :
    ceilDiv n P ≤ c ↔ n ≤ P * c := by
  rw [ceilDiv_eq]
  exact ceilDiv_le_iff_le_mul hP

theorem lt_ceilDiv_iff (n P c : Nat) (hP : 0 < P) :
    c < ceilDiv n P ↔ P * c < n := by
  constructor
  · intro h
    by_contra hc
    have h1 := (ceilDiv_le_iff n P c hP).2 (by omega)
    omega
  · intro h
    by_contra hc
    have h1 := (ceilDiv_le_iff n P c hP).1 (by omega)
    omega

/-- Slice number `i` of the loop is `payload.slice(i * P, i * P + P)`. -/
theorem sliceChunks_getElem (P : Nat) (hP : 0 < P) (l : List Nat) (i : Nat)
    (h : i < (sliceChunks P l).length) :
    (sliceChunks P l)[i]? = some ((l.drop (i * P)).take P) := by
  induction l using sliceChunks.induct P generalizing i with
  | case1 => simp [sliceChunks] at h
  | case2 a rest ih =>
      have hd : (a :: rest).drop P = rest.drop (P - 1) := by
        cases P with
        | zero => omega
        | succ n => simp
      match i with
      | 0 =>
          rw [Nat.zero_mul, List.drop_zero]
          rw [sliceChunks_cons P hP]
          exact List.getElem?_cons_zero
      | j + 1 =>
          rw [sliceChunks_cons P hP] at h ⊢
          rw [List.getElem?_cons_succ, hd]
          rw [hd] at h
          simp only [List.length_cons] at h
          rw [ih j (by omega), List.drop_drop]
          have h1 : (j + 1) * P = j * P + (P - 1) + 1 := by
            have h2 : (j + 1) * P = j * P + P := by ring
            omega
          rw [h1, List.drop_succ_cons, Nat.add_comm]

/-- Every slice except possibly the last holds exactly `P` bytes. -/
theorem sliceChunks_sizes (P : Nat) (hP : 0 < P) (l : List Nat) (i : Nat)
    (h : i + 1 < (sliceChunks P l).length) :
    ((sliceChunks P l)[i]?.map List.length) = some P := by
  rw [sliceChunks_getElem P hP l i (by omega)]
  have h5 : ((l.drop (i * P)).take P).length = P := by
    rw [List.length_take, List.length_drop]
    rw [sliceChunks_length P hP] at h
    have h3 : P * (i + 1) < l.length := (lt_ceilDiv_iff _ P _ hP).1 (by omega)
    have h4 : P * (i + 1) = i * P + P := by ring
    omega
  show some ((l.drop (i * P)).take P).length = some P
  exact congrArg some h5

/-- The Piece messages built by the loop: `sliceChunks` paired with the
running `index` counter, starting at `i`. -/
def chunkMsgsFrom (i : Nat) : List (List Nat) → List Msg
  | [] => []
  | c :: cs => Msg.chunk i c :: chunkMsgsFrom (i + 1) cs

/-- The Piece messages of one whole transfer. -/
def chunkMsgs (P : Nat) (payload : List Nat) : List Msg :=
  chunkMsgsFrom 0 (sliceChunks P payload)

/-- The Transfer Descriptor `sendFile` builds (App.tsx lines 135-141):
`size` is `file.size` and `chunkSize` the sender's piece size. -/
def metaFor (name mime : String) (payload : List Nat) (P : Nat) : Meta :=
  ⟨name, payload.length, mime, P⟩

/-- The complete happy-path output of `sendFile`: one Transfer Descriptor,
the Pieces in index order, one End Marker. -/
def senderMessages (name mime : String) (payload : List Nat) (P : Nat) :
    List Msg :=
  Msg.meta (metaFor name mime payload P) :: (chunkMsgs P payload ++ [Msg.eof])

theorem chunkMsgsFrom_length (i : Nat) (cs : List (List Nat)) :
    (chunkMsgsFrom i cs).length = cs.length := by
  induction cs generalizing i with
  | nil => rfl
  | cons c cs ih => simp [chunkMsgsFrom, ih]

theorem chunkMsgsFrom_isChunk (i : Nat) (cs : List (List Nat)) :
    ∀ x ∈ chunkMsgsFrom i cs, x.isChunk = true := by
  induction cs generalizing i with
  | nil => simp [chunkMsgsFrom]
  | cons c cs ih =>
      intro x hx
      rw [chunkMsgsFrom] at hx
      rcases List.mem_cons.1 hx with h1 | h1
      · rw [h1]; rfl
      · exact ih (i + 1) x h1

theorem chunkMsgsFrom_getElem (i : Nat) (cs : List (List Nat)) (j : Nat) :
    (chunkMsgsFrom i cs)[j]? = (cs[j]?).map (Msg.chunk (i + j)) := by
  induction cs generalizing i j with
  | nil => simp [chunkMsgsFrom]
  | cons c cs ih =>
      match j with
      | 0 => simp [chunkMsgsFrom]
      | k + 1 =>
          rw [chunkMsgsFrom, List.getElem?_cons_succ, List.getElem?_cons_succ,
            ih (i + 1) k]
          have h1 : i + 1 + k = i + (k + 1) := by omega
          rw [h1]

/-- Taking one more prepared Piece message appends the Piece at the
current index. -/
theorem chunkMsgs_take_succ (P : Nat) (hP : 0 < P) (payload : List Nat)
    (k : Nat) (h : k < (sliceChunks P payload).length) :
    (chunkMsgs P payload).take (k + 1) =
      (chunkMsgs P payload).take k ++
        [Msg.chunk k ((payload.drop (k * P)).take P)] := by
  have h1 : (chunkMsgs P payload)[k]? =
      some (Msg.chunk k ((payload.drop (k * P)).take P)) := by
    rw [chunkMsgs, chunkMsgsFrom_getElem 0 (sliceChunks P payload) k,
      sliceChunks_getElem P hP payload k h]
    simp
  rw [List.take_succ, h1]
  rfl

/-- The payloads carried by a list of messages, Pieces only, in order. -/
def chunkPayloads : List Msg → List (List Nat)
  | [] => []
  | .chunk _ p :: rest => p :: chunkPayloads rest
  | .meta _ :: rest => chunkPayloads rest
  | .eof :: rest => chunkPayloads rest
  | .ack _ :: rest => chunkPayloads rest

theorem chunkPayloads_chunkMsgsFrom (i : Nat) (cs : List (List Nat)) :
    chunkPayloads (chunkMsgsFrom i cs) = cs := by
  induction cs generalizing i with
  | nil => rfl
  | cons c cs ih => simp [chunkMsgsFrom, chunkPayloads, ih]

/-- Appending one value that dominates a sorted list keeps it sorted. -/
theorem sorted_snoc (l : List Nat) (a : Nat)
    (hs : List.Sorted (· ≤ ·) l) (hb : ∀ x ∈ l, x ≤ a) :
    List.Sorted (· ≤ ·) (l ++ [a]) := by
  rw [List.Sorted, List.pairwise_append]
  refine ⟨hs, List.pairwise_singleton _ _, ?_⟩
  intro x hx y hy
  rw [List.mem_singleton] at hy
  rw [hy]
  exact hb x hx

theorem last_snoc (l : List Nat) (a : Nat) :
    (l ++ [a]).getLast? = some a := by
  induction l with
  | nil => rfl
  | cons b l ih =>
      cases l with
      | nil => rfl
      | cons c l =>
          simp only [List.cons_append, List.getLast?_cons_cons]
          simp only [List.cons_append] at ih
          exact ih

/-- Effect of the data handler on a run of Piece messages while a
descriptor `m` is active: the descriptor, the expected count and the
saved artifacts are untouched, each payload is appended in arrival order,
and each payload's length is added to the byte counter. -/
theorem handleData_chunkRun (msgs : List Msg) (s : RecvState) (m : Meta)
    (hm : s.metaRef = some m) (hc : ∀ x ∈ msgs, x.isChunk = true) :
    (runReceiver s msgs).metaRef = some m ∧
    (runReceiver s msgs).expectedChunks = s.expectedChunks ∧
    (runReceiver s msgs).receiveBuffers =
      s.receiveBuffers ++ chunkPayloads msgs ∧
    (runReceiver s msgs).receivedBytes =
      s.receivedBytes + ((chunkPayloads msgs).map List.length).sum ∧
    (runReceiver s msgs).saved = s.saved := by
  induction msgs generalizing s with
  | nil => refine ⟨hm, rfl, ?_, ?_, rfl⟩ <;> simp [runReceiver, chunkPayloads]
  | cons x msgs ih =>
      match x with
      | .meta _ | .eof | .ack _ => simp [Msg.isChunk] at hc
      | .chunk i p =>
          have hc' : ∀ x ∈ msgs, x.isChunk = true := by
            intro y hy
            exact hc y (List.mem_cons_of_mem _ hy)
          have hstep : runReceiver s (Msg.chunk i p :: msgs) =
              runReceiver (handleData s (Msg.chunk i p)) msgs := rfl
          have hm1 : (handleData s (Msg.chunk i p)).metaRef = some m := by
            simp [handleData, hm]
          have ihx := ih (handleData s (Msg.chunk i p)) hm1 hc'
          rw [hstep]
          refine ⟨ihx.1, ?_, ?_, ?_, ?_⟩
          · rw [ihx.2.1]
            simp [handleData, hm]
          · rw [ihx.2.2.1]
            simp [handleData, hm, chunkPayloads]
          · rw [ihx.2.2.2.1]
            simp [handleData, hm, chunkPayloads]
            omega
          · rw [ihx.2.2.2.2]
            simp [handleData, hm]

/-- Effect of a run of Piece messages on the progress report log while a
descriptor is active: the log stays sorted, and stays bounded by the
progress value of the current byte count (hence by 100). -/
theorem handleData_chunkRunLog (msgs : List Msg) (s : RecvState) (m : Meta)
    (hm : s.metaRef = some m) (hc : ∀ x ∈ msgs, x.isChunk = true)
    (hs : List.Sorted (· ≤ ·) s.progressLog)
    (hb : ∀ x ∈ s.progressLog,
      x ≤ min 100 (s.receivedBytes * 100 / m.size)) :
    List.Sorted (· ≤ ·) (runReceiver s msgs).progressLog ∧
    ∀ x ∈ (runReceiver s msgs).progressLog,
      x ≤ min 100 ((runReceiver s msgs).receivedBytes * 100 / m.size) := by
  induction msgs generalizing s with
  | nil => exact ⟨hs, hb⟩
  | cons x msgs ih =>
      match x with
      | .meta _ | .eof | .ack _ => simp [Msg.isChunk] at hc
      | .chunk i p =>
          have hc' : ∀ x ∈ msgs, x.isChunk = true := by
            intro y hy
            exact hc y (List.mem_cons_of_mem _ hy)
          have hstep : runReceiver s (Msg.chunk i p :: msgs) =
              runReceiver (handleData s (Msg.chunk i p)) msgs := rfl
          set t := handleData s (Msg.chunk i p) with ht
          have hm1 : t.metaRef = some m := by simp [ht, handleData, hm]
          have htlog : t.progressLog = s.progressLog ++
              [min 100 ((s.receivedBytes + p.length) * 100 / m.size)] := by
            simp [ht, handleData, hm]
          have htbytes : t.receivedBytes = s.receivedBytes + p.length := by
            simp [ht, handleData, hm]
          have hmono : min 100 (s.receivedBytes * 100 / m.size) ≤
              min 100 ((s.receivedBytes + p.length) * 100 / m.size) :=
            min_le_min (le_refl 100)
              (Nat.div_le_div_right (Nat.mul_le_mul_right _ (by omega)))
          have hs1 : List.Sorted (· ≤ ·) t.progressLog := by
            rw [htlog]
            refine sorted_snoc _ _ hs ?_
            intro x hx
            exact le_trans (hb x hx) hmono
          have hb1 : ∀ x ∈ t.progressLog,
              x ≤ min 100 (t.receivedBytes * 100 / m.size) := by
            rw [htlog, htbytes]
            intro x hx
            rcases List.mem_append.1 hx with h1 | h1
            · exact le_trans (hb x h1) hmono
            · rw [List.mem_singleton] at h1
              omega
          rw [hstep]
          exact ih t hm1 hc' hs1 hb1

/-- Control positions of the `sendFile` coroutine (App.tsx lines 131-159):
`start` is before the descriptor send (line 142); `loopCheck` is the
`while (offset < file.size)` test (line 145); `waiting` is inside
`await waitForAck()` for a Piece (line 148); `sendChunk` is after that
wait resolved, just before `conn.send` of the Piece (line 149);
`finalWait` is the `await waitForAck()` after the loop (line 155);
`sendEof` is just before `conn.send` of the End Marker (line 156);
`done` is after line 158; `aborted` means the coroutine was terminated
by an exception from a failed send on a closed channel. -/
inductive SPc where
  | start
  | loopCheck
  | waiting
  | sendChunk
  | finalWait
  | sendEof
  | done
  | aborted
deriving Repr, DecidableEq

/-- Sender-side state: the coroutine position and its local variables
`offset` and `index`, the shared flow-control flag `busyRef`, whether the
channel is still open, the list of messages handed to `conn.send` and
accepted by the channel so far (`sent`), the number of acknowledgement
events the sender's data handler has processed (`acks`), the
`sendProgress` cell and the log of values handed to the progress
reporter. -/
structure SenderState where
  pc : SPc
  offset : Nat
  index : Nat
  busy : Bool
  connOpen : Bool
  sent : List Msg
  acks : Nat
  sendProgress : Nat
  progressLog : List Nat
deriving Repr, DecidableEq

/-- State at the moment `sendFile` is entered: `busyRef` starts `false`
(App.tsx line 33) and nothing has been sent for this transfer. -/
def initSender : SenderState :=
  { pc := .start, offset := 0, index := 0, busy := false, connOpen := true,
    sent := [], acks := 0, sendProgress := 0, progressLog := [] }

/-- Small-step relation for one run of `sendFile` interleaved with the
inbound-message handler and the channel close event.

Translation notes, keyed to App.tsx:

  * `sendMeta` (lines 133-142): `setSendProgress(0)` then `conn.send(m)`.
    There is no wait and no setting of `busyRef` before this send.
  * `loopEnter` / `loopExit` (line 145): the `while` test.
  * `acquire` (lines 148, 161-173): `waitForAck` resolves only when
    `busyRef` is `false`, and sets it `true` in the same step (the
    check-and-set is atomic because the runtime is single-threaded and
    `trySend` does both without suspending).
  * `emitChunk` (lines 149-153): send the Piece
    `chunk(index, payload.slice(offset, offset + P))`, then
    `offset += P; index += 1`, then report
    `min(100, floor(offset * 100 / size))`.
  * `finalAcquire` / `emitEof` (lines 155-157): the final wait, the End
    Marker send, `setSendProgress(100)`.
  * `ackArrive` (lines 112-114): the data handler's `ack` branch clears
    `busyRef` whatever index `i` the acknowledgement carries.  It is an
    environment event: it can fire at any control position.
  * `closeEvt` (lines 116-120): the channel close notification.
  * Modelled from the spec: the channel adapter itself is the external
    PeerJS `DataConnection`, whose `send` on a channel that is not open
    fails with a `ChannelClosed` error (spec section 6).  A failed send
    therefore delivers nothing and the uncaught exception terminates the
    coroutine: constructors `sendMetaClosed`, `emitChunkClosed`,
    `emitEofClosed`. -/
inductive SenderStep (name mime : String) (payload : List Nat) (P : Nat) :
    SenderState → SenderState → Prop where
  | sendMeta (s : SenderState) (hpc : s.pc = .start)
      (ho : s.connOpen = true) :
      SenderStep name mime payload P s
        { s with pc := .loopCheck,
                 sendProgress := 0,
                 progressLog := s.progressLog ++ [0],
                 sent := s.sent ++ [.meta (metaFor name mime payload P)] }
  | sendMetaClosed (s : SenderState) (hpc : s.pc = .start)
      (ho : s.connOpen = false) :
      SenderStep name mime payload P s
        { s with pc := .aborted,
                 sendProgress := 0,
                 progressLog := s.progressLog ++ [0] }
  | loopEnter (s : SenderState) (hpc : s.pc = .loopCheck)
      (hlt : s.offset < payload.length) :
      SenderStep name mime payload P s { s with pc := .waiting }
  | loopExit (s : SenderState) (hpc : s.pc = .loopCheck)
      (hge : ¬ s.offset < payload.length) :
      SenderStep name mime payload P s { s with pc := .finalWait }
  | acquire (s : SenderState) (hpc : s.pc = .waiting)
      (hb : s.busy = false) :
      SenderStep name mime payload P s
        { s with pc := .sendChunk, busy := true }
  | emitChunk (s : SenderState) (hpc : s.pc = .sendChunk)
      (ho : s.connOpen = true) :
      SenderStep name mime payload P s
        { s with pc := .loopCheck,
                 sent := s.sent ++
                   [.chunk s.index ((payload.drop s.offset).take P)],
                 offset := s.offset + P,
                 index := s.index + 1,
                 sendProgress :=
                   min 100 ((s.offset + P) * 100 / payload.length),
                 progressLog := s.progressLog ++
                   [min 100 ((s.offset + P) * 100 / payload.length)] }
  | emitChunkClosed (s : SenderState) (hpc : s.pc = .sendChunk)
      (ho : s.connOpen = false) :
      SenderStep name mime payload P s { s with pc := .aborted }
  | finalAcquire (s : SenderState) (hpc : s.pc = .finalWait)
      (hb : s.busy = false) :
      SenderStep name mime payload P s
        { s with pc := .sendEof, busy := true }
  | emitEof (s : SenderState) (hpc : s.pc = .sendEof)
      (ho : s.connOpen = true) :
      SenderStep name mime payload P s
        { s with pc := .done,
                 sent := s.sent ++ [.eof],
                 sendProgress := 100,
                 progressLog := s.progressLog ++ [100] }
  | emitEofClosed (s : SenderState) (hpc : s.pc = .sendEof)
      (ho : s.connOpen = false) :
      SenderStep name mime payload P s { s with pc := .aborted }
  | ackArrive (s : SenderState) (i : Int) :
      SenderStep name mime payload P s
        { s with busy := false, acks := s.acks + 1 }
  | closeEvt (s : SenderState) :
      SenderStep name mime payload P s { s with connOpen := false }

/-- States reachable within a single run of `sendFile`. -/
def SenderReach (name mime : String) (payload : List Nat) (P : Nat)
    (s : SenderState) : Prop :=
  Relation.ReflTransGen (SenderStep name mime payload P) initSender s

/-- How many messages beyond the acknowledged ones may already have been
sent at each control position: the descriptor send is not guarded by the
flow-control flag, so one extra message rides along the whole pipeline. -/
def slackOf : SPc → Bool → Nat
  | .start, _ => 0
  | .sendChunk, b => if b then 1 else 0
  | .sendEof, b => if b then 1 else 0
  | .loopCheck, b => if b then 2 else 1
  | .waiting, b => if b then 2 else 1
  | .finalWait, b => if b then 2 else 1
  | .done, b => if b then 2 else 1
  | .aborted, b => if b then 2 else 1

theorem slackOf_le_ack (pc : SPc) (b : Bool) :
    slackOf pc b ≤ slackOf pc false + 1 := by
  cases pc <;> cases b <;> simp [slackOf]

theorem slack_step (name mime : String) (payload : List Nat) (P : Nat)
    (a b : SenderState) (hstep : SenderStep name mime payload P a b)
    (ih : a.sent.length ≤ a.acks + slackOf a.pc a.busy) :
    b.sent.length ≤ b.acks + slackOf b.pc b.busy := by
  cases hstep with
  | sendMeta hpc ho =>
      rw [hpc] at ih
      cases hb : a.busy <;>
        (rw [hb] at ih; simp [slackOf, hb] at ih ⊢; omega)
  | sendMetaClosed hpc ho =>
      rw [hpc] at ih
      cases hb : a.busy <;>
        (rw [hb] at ih; simp [slackOf, hb] at ih ⊢; omega)
  | loopEnter hpc hlt =>
      rw [hpc] at ih
      simpa [slackOf] using ih
  | loopExit hpc hge =>
      rw [hpc] at ih
      simpa [slackOf] using ih
  | acquire hpc hb =>
      rw [hpc, hb] at ih
      simpa [slackOf] using ih
  | emitChunk hpc ho =>
      rw [hpc] at ih
      cases hb : a.busy <;>
        (rw [hb] at ih; simp [slackOf, hb] at ih ⊢; omega)
  | emitChunkClosed hpc ho =>
      rw [hpc] at ih
      cases hb : a.busy <;>
        (rw [hb] at ih; simp [slackOf, hb] at ih ⊢; omega)
  | finalAcquire hpc hb =>
      rw [hpc, hb] at ih
      simpa [slackOf] using ih
  | emitEof hpc ho =>
      rw [hpc] at ih
      cases hb : a.busy <;>
        (rw [hb] at ih; simp [slackOf, hb] at ih ⊢; omega)
  | emitEofClosed hpc ho =>
      rw [hpc] at ih
      cases hb : a.busy <;>
        (rw [hb] at ih; simp [slackOf, hb] at ih ⊢; omega)
  | ackArrive i =>
      have h1 := slackOf_le_ack a.pc a.busy
      simp only [] at ih ⊢
      omega
  | closeEvt =>
      simpa using ih

/-- Inductive flow-control invariant: the number of messages sent never
exceeds the number of acknowledgements processed plus the slack of the
current control position. -/
theorem sender_flow_bound (name mime : String) (payload : List Nat)
    (P : Nat) (s : SenderState) (h : SenderReach name mime payload P s) :
    s.sent.length ≤ s.acks + slackOf s.pc s.busy := by
  induction h with
  | refl => simp [initSender, slackOf]
  | tail hr hstep ih => exact slack_step name mime payload P _ _ hstep ih

/-- The slack never exceeds 2: at most two sent messages are unmatched by
acknowledgements, in every reachable state. -/
theorem sender_outstanding_le_two (name mime : String) (payload : List Nat)
    (P : Nat) (s : SenderState) (h : SenderReach name mime payload P s) :
    s.sent.length ≤ s.acks + 2 := by
  have h1 := sender_flow_bound name mime payload P s h
  have h2 : slackOf s.pc s.busy ≤ 2 := by
    cases hpc : s.pc <;> cases hb : s.busy <;> simp [slackOf]
  omega

/-- What the sender has handed to the channel at each control position:
nothing before the descriptor send, the descriptor followed by the first
`index` Pieces during the loop, and additionally the End Marker at `done`.
The `waiting`/`sendChunk` positions are only reachable while
`offset < size`, the post-loop positions only once `size ≤ offset`. -/
def pcSent (name mime : String) (payload : List Nat) (P : Nat)
    (pc : SPc) (offset index : Nat) (sent : List Msg) : Prop :=
  match pc with
  | .start => sent = [] ∧ index = 0
  | .loopCheck =>
      sent = Msg.meta (metaFor name mime payload P) ::
        (chunkMsgs P payload).take index
  | .waiting =>
      offset < payload.length ∧
      sent = Msg.meta (metaFor name mime payload P) ::
        (chunkMsgs P payload).take index
  | .sendChunk =>
      offset < payload.length ∧
      sent = Msg.meta (metaFor name mime payload P) ::
        (chunkMsgs P payload).take index
  | .finalWait =>
      payload.length ≤ offset ∧
      sent = Msg.meta (metaFor name mime payload P) ::
        (chunkMsgs P payload).take index
  | .sendEof =>
      payload.length ≤ offset ∧
      sent = Msg.meta (metaFor name mime payload P) ::
        (chunkMsgs P payload).take index
  | .done =>
      payload.length ≤ offset ∧
      sent = Msg.meta (metaFor name mime payload P) ::
        ((chunkMsgs P payload).take index ++ [Msg.eof])
  | .aborted =>
      (sent = [] ∧ index = 0) ∨
      sent = Msg.meta (metaFor name mime payload P) ::
        (chunkMsgs P payload).take index

/-- Inductive shape invariant tying `offset`, `index` and `sent` together. -/
def sentShape (name mime : String) (payload : List Nat) (P : Nat)
    (s : SenderState) : Prop :=
  s.offset = s.index * P ∧
  s.index ≤ (sliceChunks P payload).length ∧
  pcSent name mime payload P s.pc s.offset s.index s.sent

theorem shape_step (name mime : String) (payload : List Nat) (P : Nat)
    (hP : 0 < P) (a b : SenderState)
    (hstep : SenderStep name mime payload P a b)
    (ih : sentShape name mime payload P a) :
    sentShape name mime payload P b := by
  obtain ⟨h1, h2, h3⟩ := ih
  cases hstep with
  | sendMeta hpc ho =>
      rw [hpc] at h3
      simp only [pcSent] at h3
      refine ⟨h1, h2, ?_⟩
      simp only [pcSent]
      rw [h3.1, h3.2]
      simp
  | sendMetaClosed hpc ho =>
      rw [hpc] at h3
      simp only [pcSent] at h3
      refine ⟨h1, h2, ?_⟩
      show pcSent name mime payload P .aborted a.offset a.index a.sent
      simp only [pcSent]
      exact Or.inl h3
  | loopEnter hpc hlt =>
      rw [hpc] at h3
      simp only [pcSent] at h3 ⊢
      exact ⟨h1, h2, hlt, h3⟩
  | loopExit hpc hge =>
      rw [hpc] at h3
      simp only [pcSent] at h3 ⊢
      exact ⟨h1, h2, Nat.le_of_not_lt hge, h3⟩
  | acquire hpc hb =>
      rw [hpc] at h3
      simp only [pcSent] at h3 ⊢
      exact ⟨h1, h2, h3⟩
  | emitChunk hpc ho =>
      rw [hpc] at h3
      simp only [pcSent] at h3
      obtain ⟨hlt, hsent⟩ := h3
      have hidx : a.index < (sliceChunks P payload).length := by
        rw [sliceChunks_length P hP]
        refine (lt_ceilDiv_iff _ P _ hP).2 ?_
        rw [Nat.mul_comm]
        omega
      refine ⟨?_, ?_, ?_⟩
      · show a.offset + P = (a.index + 1) * P
        have hrw : (a.index + 1) * P = a.index * P + P := by ring
        omega
      · show a.index + 1 ≤ (sliceChunks P payload).length
        omega
      · show pcSent name mime payload P .loopCheck (a.offset + P)
          (a.index + 1)
          (a.sent ++ [Msg.chunk a.index ((payload.drop a.offset).take P)])
        simp only [pcSent]
        rw [hsent, h1, chunkMsgs_take_succ P hP payload a.index hidx]
        simp
  | emitChunkClosed hpc ho =>
      rw [hpc] at h3
      simp only [pcSent] at h3
      refine ⟨h1, h2, ?_⟩
      show pcSent name mime payload P .aborted a.offset a.index a.sent
      simp only [pcSent]
      exact Or.inr h3.2
  | finalAcquire hpc hb =>
      rw [hpc] at h3
      simp only [pcSent] at h3 ⊢
      exact ⟨h1, h2, h3⟩
  | emitEof hpc ho =>
      rw [hpc] at h3
      simp only [pcSent] at h3 ⊢
      obtain ⟨hge, hsent⟩ := h3
      refine ⟨h1, h2, hge, ?_⟩
      rw [hsent]
      simp
  | emitEofClosed hpc ho =>
      rw [hpc] at h3
      simp only [pcSent] at h3
      refine ⟨h1, h2, ?_⟩
      show pcSent name mime payload P .aborted a.offset a.index a.sent
      simp only [pcSent]
      exact Or.inr h3.2
  | ackArrive i =>
      exact ⟨h1, h2, h3⟩
  | closeEvt =>
      exact ⟨h1, h2, h3⟩

theorem sender_sent_shape (name mime : String) (payload : List Nat)
    (P : Nat) (hP : 0 < P) (s : SenderState)
    (h : SenderReach name mime payload P s) :
    sentShape name mime payload P s := by
  induction h with
  | refl =>
      refine ⟨by simp [initSender], by simp [initSender], ?_⟩
      simp [initSender, pcSent]
  | tail hr hstep ih => exact shape_step name mime payload P hP _ _ hstep ih

/-- A finished run has handed exactly the happy-path message list to the
channel: descriptor, all Pieces in order, End Marker. -/
theorem sender_done_sent (name mime : String) (payload : List Nat)
    (P : Nat) (hP : 0 < P) (s : SenderState)
    (h : SenderReach name mime payload P s) (hdone : s.pc = .done) :
    s.sent = senderMessages name mime payload P := by
  obtain ⟨h1, h2, h3⟩ := sender_sent_shape name mime payload P hP s h
  rw [hdone] at h3
  simp only [pcSent] at h3
  obtain ⟨hge, hsent⟩ := h3
  have hlen : (sliceChunks P payload).length ≤ s.index := by
    rw [sliceChunks_length P hP]
    refine (ceilDiv_le_iff _ P _ hP).2 ?_
    rw [Nat.mul_comm]
    omega
  have htake : (chunkMsgs P payload).take s.index = chunkMsgs P payload := by
    refine List.take_of_length_le ?_
    rw [chunkMsgs, chunkMsgsFrom_length]
    exact hlen
  rw [hsent, htake]
  rfl

/-- Progress-log invariant per control position: empty before the first
report, bounded by the progress value of the current `offset` while the
pipeline may still report, and ending in the final `100` once done. -/
def pcLog (payload : List Nat) (pc : SPc) (offset : Nat)
    (log : List Nat) : Prop :=
  match pc with
  | .start => log = []
  | .loopCheck => ∀ x ∈ log, x ≤ min 100 (offset * 100 / payload.length)
  | .waiting => ∀ x ∈ log, x ≤ min 100 (offset * 100 / payload.length)
  | .sendChunk => ∀ x ∈ log, x ≤ min 100 (offset * 100 / payload.length)
  | .finalWait => ∀ x ∈ log, x ≤ min 100 (offset * 100 / payload.length)
  | .sendEof => ∀ x ∈ log, x ≤ min 100 (offset * 100 / payload.length)
  | .done => ∃ l, log = l ++ [100]
  | .aborted => True

/-- Inductive invariant on the sender's reported-progress log. -/
def logShape (payload : List Nat) (s : SenderState) : Prop :=
  List.Sorted (· ≤ ·) s.progressLog ∧
  (∀ x ∈ s.progressLog, x ≤ 100) ∧
  pcLog payload s.pc s.offset s.progressLog

theorem log_step (name mime : String) (payload : List Nat) (P : Nat)
    (a b : SenderState) (hstep : SenderStep name mime payload P a b)
    (ih : logShape payload a) : logShape payload b := by
  obtain ⟨h1, h2, h3⟩ := ih
  cases hstep with
  | sendMeta hpc ho =>
      rw [hpc] at h3
      simp only [pcLog] at h3
      refine ⟨?_, ?_, ?_⟩
      · show List.Sorted (· ≤ ·) (a.progressLog ++ [0])
        rw [h3]
        simp
      · show ∀ x ∈ a.progressLog ++ [0], x ≤ 100
        rw [h3]
        simp
      · show pcLog payload .loopCheck a.offset (a.progressLog ++ [0])
        simp only [pcLog]
        rw [h3]
        intro x hx
        rw [List.nil_append, List.mem_singleton] at hx
        rw [hx]
        exact Nat.zero_le _
  | sendMetaClosed hpc ho =>
      rw [hpc] at h3
      simp only [pcLog] at h3
      refine ⟨?_, ?_, trivial⟩
      · show List.Sorted (· ≤ ·) (a.progressLog ++ [0])
        rw [h3]
        simp
      · show ∀ x ∈ a.progressLog ++ [0], x ≤ 100
        rw [h3]
        simp
  | loopEnter hpc hlt =>
      rw [hpc] at h3
      simp only [pcLog] at h3
      exact ⟨h1, h2, h3⟩
  | loopExit hpc hge =>
      rw [hpc] at h3
      simp only [pcLog] at h3
      exact ⟨h1, h2, h3⟩
  | acquire hpc hb =>
      rw [hpc] at h3
      simp only [pcLog] at h3
      exact ⟨h1, h2, h3⟩
  | emitChunk hpc ho =>
      rw [hpc] at h3
      simp only [pcLog] at h3
      have hmono : min 100 (a.offset * 100 / payload.length) ≤
          min 100 ((a.offset + P) * 100 / payload.length) :=
        min_le_min (le_refl 100)
          (Nat.div_le_div_right (Nat.mul_le_mul_right _ (by omega)))
      refine ⟨?_, ?_, ?_⟩
      · show List.Sorted (· ≤ ·) (a.progressLog ++
          [min 100 ((a.offset + P) * 100 / payload.length)])
        refine sorted_snoc _ _ h1 ?_
        intro x hx
        exact le_trans (h3 x hx) hmono
      · show ∀ x ∈ a.progressLog ++
            [min 100 ((a.offset + P) * 100 / payload.length)], x ≤ 100
        intro x hx
        rcases List.mem_append.1 hx with hx1 | hx1
        · exact h2 x hx1
        · rw [List.mem_singleton] at hx1
          omega
      · show pcLog payload .loopCheck (a.offset + P) (a.progressLog ++
          [min 100 ((a.offset + P) * 100 / payload.length)])
        simp only [pcLog]
        intro x hx
        rcases List.mem_append.1 hx with hx1 | hx1
        · exact le_trans (h3 x hx1) hmono
        · rw [List.mem_singleton] at hx1
          omega
  | emitChunkClosed hpc ho =>
      exact ⟨h1, h2, trivial⟩
  | finalAcquire hpc hb =>
      rw [hpc] at h3
      simp only [pcLog] at h3
      exact ⟨h1, h2, h3⟩
  | emitEof hpc ho =>
      refine ⟨?_, ?_, ?_⟩
      · show List.Sorted (· ≤ ·) (a.progressLog ++ [100])
        exact sorted_snoc _ _ h1 h2
      · show ∀ x ∈ a.progressLog ++ [100], x ≤ 100
        intro x hx
        rcases List.mem_append.1 hx with hx1 | hx1
        · exact h2 x hx1
        · rw [List.mem_singleton] at hx1
          omega
      · show pcLog payload .done a.offset (a.progressLog ++ [100])
        exact ⟨a.progressLog, rfl⟩
  | emitEofClosed hpc ho =>
      exact ⟨h1, h2, trivial⟩
  | ackArrive i =>
      exact ⟨h1, h2, h3⟩
  | closeEvt =>
      exact ⟨h1, h2, h3⟩

theorem sender_log_shape (name mime : String) (payload : List Nat)
    (P : Nat) (s : SenderState) (h : SenderReach name mime payload P s) :
    logShape payload s := by
  induction h with
  | refl => exact ⟨by simp [initSender], by simp [initSender], rfl⟩
  | tail hr hstep ih => exact log_step name mime payload P _ _ hstep ih

/-- Running the receiver over one whole happy-path transfer: the single
saved artifact is the slice list under the sender's file name and mime
type, and the progress report log is sorted, bounded by 100 and ends in
the exact value 100. -/
theorem receiver_run (name mime : String) (payload : List Nat) (P : Nat) :
    (runReceiver initRecv (senderMessages name mime payload P)).saved =
      [(sliceChunks P payload, name, mime)] ∧
    List.Sorted (· ≤ ·)
      (runReceiver initRecv
        (senderMessages name mime payload P)).progressLog ∧
    (∀ x ∈ (runReceiver initRecv
        (senderMessages name mime payload P)).progressLog, x ≤ 100) ∧
    (runReceiver initRecv
        (senderMessages name mime payload P)).progressLog.getLast? =
      some 100 ∧
    (runReceiver initRecv
        (senderMessages name mime payload P)).recvProgress = 100 := by
  have hchunks : ∀ x ∈ chunkMsgs P payload, x.isChunk = true :=
    chunkMsgsFrom_isChunk 0 (sliceChunks P payload)
  have hsplit : runReceiver initRecv (senderMessages name mime payload P) =
      handleData
        (runReceiver
          (handleData initRecv (Msg.meta (metaFor name mime payload P)))
          (chunkMsgs P payload))
        Msg.eof := by
    rw [senderMessages, runReceiver, List.foldl_cons, List.foldl_append,
      List.foldl_cons, List.foldl_nil]
    rfl
  have hs1m : (handleData initRecv
      (Msg.meta (metaFor name mime payload P))).metaRef =
      some (metaFor name mime payload P) := by
    simp [handleData, initRecv]
  have hs1log : (handleData initRecv
      (Msg.meta (metaFor name mime payload P))).progressLog = [0] := by
    simp [handleData, initRecv]
  have hs1bytes : (handleData initRecv
      (Msg.meta (metaFor name mime payload P))).receivedBytes = 0 := by
    simp [handleData, initRecv]
  have hs1buf : (handleData initRecv
      (Msg.meta (metaFor name mime payload P))).receiveBuffers = [] := by
    simp [handleData, initRecv]
  have hs1saved : (handleData initRecv
      (Msg.meta (metaFor name mime payload P))).saved = [] := by
    simp [handleData, initRecv]
  have h1 := handleData_chunkRun (chunkMsgs P payload)
    (handleData initRecv (Msg.meta (metaFor name mime payload P)))
    (metaFor name mime payload P) hs1m hchunks
  have h2 := handleData_chunkRunLog (chunkMsgs P payload)
    (handleData initRecv (Msg.meta (metaFor name mime payload P)))
    (metaFor name mime payload P) hs1m hchunks
    (by rw [hs1log]; simp)
    (by
      rw [hs1log, hs1bytes]
      intro x hx
      rw [List.mem_singleton] at hx
      rw [hx]
      exact Nat.zero_le _)
  obtain ⟨htm, hte, htb, hty, hts⟩ := h1
  obtain ⟨htsort, htbound⟩ := h2
  have htb' : (runReceiver
      (handleData initRecv (Msg.meta (metaFor name mime payload P)))
      (chunkMsgs P payload)).receiveBuffers = sliceChunks P payload := by
    rw [htb, hs1buf, chunkMsgs, chunkPayloads_chunkMsgsFrom]
    rfl
  have hble : ∀ x ∈ (runReceiver
      (handleData initRecv (Msg.meta (metaFor name mime payload P)))
      (chunkMsgs P payload)).progressLog, x ≤ 100 := by
    intro x hx
    exact le_trans (htbound x hx) (Nat.min_le_left _ _)
  rw [hsplit, handleData_eof_some _ _ htm]
  refine ⟨?_, ?_, ?_, ?_, rfl⟩
  · show (runReceiver _ _).saved ++ [((runReceiver _ _).receiveBuffers,
      name, mime)] = [(sliceChunks P payload, name, mime)]
    rw [hts, hs1saved, htb']
    rfl
  · exact sorted_snoc _ _ htsort hble
  · intro x hx
    rcases List.mem_append.1 hx with hx1 | hx1
    · exact hble x hx1
    · rw [List.mem_singleton] at hx1
      omega
  · exact last_snoc _ _

/-- Before the first acknowledgement is processed, the sender has
dispatched at most one Piece (Piece 0). -/
theorem sender_no_ack_at_most_one_chunk (name mime : String)
    (payload : List Nat) (P : Nat) (hP : 0 < P) (s : SenderState)
    (h : SenderReach name mime payload P s) (hacks : s.acks = 0) :
    s.index ≤ 1 := by
  have hb := sender_flow_bound name mime payload P s h
  obtain ⟨h1, h2, h3⟩ := sender_sent_shape name mime payload P hP s h
  have htk : ((chunkMsgs P payload).take s.index).length = s.index := by
    rw [List.length_take, chunkMsgs, chunkMsgsFrom_length]
    omega
  have hsl : slackOf s.pc s.busy ≤ 2 := by
    cases s.pc <;> cases s.busy <;> simp [slackOf]
  rw [hacks] at hb
  cases hpc : s.pc with
  | start =>
      rw [hpc] at h3
      simp only [pcSent] at h3
      omega
  | loopCheck =>
      rw [hpc] at hb hsl h3
      simp only [pcSent] at h3
      rw [h3, List.length_cons, htk] at hb
      omega
  | waiting =>
      rw [hpc] at hb hsl h3
      simp only [pcSent] at h3
      rw [h3.2, List.length_cons, htk] at hb
      omega
  | sendChunk =>
      rw [hpc] at hb hsl h3
      simp only [pcSent] at h3
      rw [h3.2, List.length_cons, htk] at hb
      omega
  | finalWait =>
      rw [hpc] at hb hsl h3
      simp only [pcSent] at h3
      rw [h3.2, List.length_cons, htk] at hb
      omega
  | sendEof =>
      rw [hpc] at hb hsl h3
      simp only [pcSent] at h3
      rw [h3.2, List.length_cons, htk] at hb
      omega
  | done =>
      rw [hpc] at hb hsl h3
      simp only [pcSent] at h3
      rw [h3.2, List.length_cons, List.length_append, htk,
        List.length_singleton] at hb
      omega
  | aborted =>
      rw [hpc] at hb hsl h3
      simp only [pcSent] at h3
      rcases h3 with ⟨hsent, hidx⟩ | hsent
      · omega
      · rw [hsent, List.length_cons, htk] at hb
        omega

/-- A concrete reachable state, for the file name `f.bin` and the one-byte
payload `[7]`: the descriptor and Piece 0 have both been handed to the
channel while no acknowledgement has been processed yet. -/
def twoOutState : SenderState :=
  { pc := .loopCheck, offset := 16384, index := 1, busy := true,
    connOpen := true,
    sent := [Msg.meta ⟨"f.bin", 1, "app", 16384⟩, Msg.chunk 0 [7]],
    acks := 0, sendProgress := 100, progressLog := [0, 100] }

theorem twoOutState_reach :
    SenderReach "f.bin" "app" [7] 16384 twoOutState := by
  refine Relation.ReflTransGen.head
    (SenderStep.sendMeta initSender rfl rfl) ?_
  refine Relation.ReflTransGen.head
    (SenderStep.loopEnter _ rfl (by decide)) ?_
  refine Relation.ReflTransGen.head
    (SenderStep.acquire _ rfl rfl) ?_
  refine Relation.ReflTransGen.head
    (SenderStep.emitChunk _ rfl rfl) ?_
  exact Relation.ReflTransGen.refl

/-- The same run carried to completion: the last acknowledgement observed
is the one for the descriptor, after which the End Marker goes out. -/
def doneState : SenderState :=
  { pc := .done, offset := 16384, index := 1, busy := true,
    connOpen := true,
    sent := [Msg.meta ⟨"f.bin", 1, "app", 16384⟩, Msg.chunk 0 [7],
      Msg.eof],
    acks := 1, sendProgress := 100, progressLog := [0, 100, 100] }

theorem doneState_reach :
    SenderReach "f.bin" "app" [7] 16384 doneState := by
  refine Relation.ReflTransGen.trans twoOutState_reach ?_
  refine Relation.ReflTransGen.head
    (SenderStep.loopExit twoOutState rfl (by decide)) ?_
  refine Relation.ReflTransGen.head
    (SenderStep.ackArrive _ (-1)) ?_
  refine Relation.ReflTransGen.head
    (SenderStep.finalAcquire _ rfl rfl) ?_
  refine Relation.ReflTransGen.head
    (SenderStep.emitEof _ rfl rfl) ?_
  exact Relation.ReflTransGen.refl

/-- A completed run for the empty payload: descriptor and End Marker go
out back to back, with no Piece and no acknowledgement ever processed. -/
def emptyDoneState : SenderState :=
  { pc := .done, offset := 0, index := 0, busy := true, connOpen := true,
    sent := [Msg.meta ⟨"e.bin", 0, "app", 16384⟩, Msg.eof],
    acks := 0, sendProgress := 100, progressLog := [0, 100] }

theorem emptyDoneState_reach :
    SenderReach "e.bin" "app" [] 16384 emptyDoneState := by
  refine Relation.ReflTransGen.head
    (SenderStep.sendMeta initSender rfl rfl) ?_
  refine Relation.ReflTransGen.head
    (SenderStep.loopExit _ rfl (by decide)) ?_
  refine Relation.ReflTransGen.head
    (SenderStep.finalAcquire _ rfl rfl) ?_
  refine Relation.ReflTransGen.head
    (SenderStep.emitEof _ rfl rfl) ?_
  exact Relation.ReflTransGen.refl

/-- C1, counterexample: the claim that at most one sent message is ever
unacknowledged is false.  In the concrete reachable state `twoOutState`
(descriptor and Piece 0 sent, no acknowledgement processed) the count of
sent messages minus the count of received acknowledgements is 2.  The
root cause is that `sendFile` sends the descriptor without setting
`busyRef`, so the first `waitForAck` resolves immediately. -/
theorem c1_claim_false :
    SenderReach "f.bin" "app" [7] 16384 twoOutState ∧
    1 < twoOutState.sent.length - twoOutState.acks :=
  ⟨twoOutState_reach, by decide⟩

/-- C1, amended: in every reachable state of the sender's step relation
the count of messages sent (descriptor, Pieces, End Marker) minus the
count of acknowledgements received never exceeds 2 (rather than the
claimed 1). -/
theorem c1_at_most_two_outstanding (name mime : String)
    (payload : List Nat) (P : Nat) (s : SenderState)
    (h : SenderReach name mime payload P s) :
    s.sent.length - s.acks ≤ 2 := by
  have h1 := sender_outstanding_le_two name mime payload P s h
  omega

/-- C1, witness: the amended bound applied to the concrete reachable
state with both the descriptor and Piece 0 outstanding. -/
theorem c1_at_most_two_outstanding_witness :
    twoOutState.sent.length - twoOutState.acks ≤ 2 :=
  c1_at_most_two_outstanding "f.bin" "app" [7] 16384 twoOutState
    twoOutState_reach

/-- C2, counterexample: the claim that Piece 0 is never sent before the
descriptor's acknowledgement arrives is false: in the reachable state
`twoOutState`, Piece 0 is among the sent messages while zero
acknowledgements (in particular not the descriptor's) have been
received. -/
theorem c2_claim_false :
    SenderReach "f.bin" "app" [7] 16384 twoOutState ∧
    Msg.chunk 0 [7] ∈ twoOutState.sent ∧
    twoOutState.acks = 0 :=
  ⟨twoOutState_reach, by decide, rfl⟩

/-- C2, amended: the flow-control wait is off by one.  Piece 0 may be
dispatched before any acknowledgement arrives, but while no
acknowledgement has been processed at most one Piece has been sent: the
second Piece always waits for the first acknowledgement (under ordered
delivery, the descriptor's). -/
theorem c2_second_piece_needs_ack (name mime : String) (payload : List Nat)
    (P : Nat) (hP : 0 < P) (s : SenderState)
    (h : SenderReach name mime payload P s) (hacks : s.acks = 0) :
    s.index ≤ 1 :=
  sender_no_ack_at_most_one_chunk name mime payload P hP s h hacks

/-- C2, witness: the amended bound applied at the concrete state in which
Piece 0 is out with no acknowledgement processed. -/
theorem c2_second_piece_needs_ack_witness : twoOutState.index ≤ 1 :=
  c2_second_piece_needs_ack "f.bin" "app" [7] 16384 (by decide)
    twoOutState twoOutState_reach rfl

/-- C7, counterexample: for the empty payload the sequence of messages is
descriptor then End Marker as claimed, but the claimed flow-control wait
for the "ready" acknowledgement does not gate the End Marker: the state
`emptyDoneState` is reachable with the End Marker already sent and zero
acknowledgements ever received (busy was still `false` from
initialisation, so `waitForAck` resolved immediately). -/
theorem c7_claim_false :
    SenderReach "e.bin" "app" [] 16384 emptyDoneState ∧
    emptyDoneState.sent = [Msg.meta ⟨"e.bin", 0, "app", 16384⟩, Msg.eof] ∧
    emptyDoneState.acks = 0 :=
  ⟨emptyDoneState_reach, rfl, rfl⟩

/-- C7, amended: for a payload of size 0 a completed sender run emits
exactly the Transfer Descriptor followed by the End Marker with zero
Piece messages, and the receiver then saves an empty artifact; the
`waitForAck` call does still sit between the two sends, but it completes
without requiring the "ready" acknowledgement to have arrived. -/
theorem c7_empty_payload (name mime : String) (P : Nat) (hP : 0 < P)
    (s : SenderState) (h : SenderReach name mime [] P s)
    (hdone : s.pc = .done) :
    s.sent = [Msg.meta (metaFor name mime [] P), Msg.eof] ∧
    (runReceiver initRecv s.sent).saved = [([], name, mime)] := by
  have hs := sender_done_sent name mime [] P hP s h hdone
  have hnil : sliceChunks P ([] : List Nat) = [] := by simp [sliceChunks]
  have hmsgs : senderMessages name mime [] P =
      [Msg.meta (metaFor name mime [] P), Msg.eof] := by
    rw [senderMessages, chunkMsgs, hnil]
    rfl
  constructor
  · rw [hs, hmsgs]
  · rw [hs]
    have hr := (receiver_run name mime [] P).1
    rw [hnil] at hr
    exact hr

/-- C7, witness: the amended statement applied to the concrete completed
empty-payload run. -/
theorem c7_empty_payload_witness :
    emptyDoneState.sent =
      [Msg.meta (metaFor "e.bin" "app" [] 16384), Msg.eof] ∧
    (runReceiver initRecv emptyDoneState.sent).saved =
      [([], "e.bin", "app")] :=
  c7_empty_payload "e.bin" "app" 16384 (by decide) emptyDoneState
    emptyDoneState_reach rfl

/-- C8: once the channel is closed, no continuation of the run delivers
any further message to the channel (no Piece and no End Marker), and the
channel never reopens.  Send attempts on the closed channel fail with
the spec's ChannelClosed error and terminate the pipeline instead of
transmitting. -/
theorem c8_closed_no_further_sends (name mime : String)
    (payload : List Nat) (P : Nat) (s s' : SenderState)
    (hclosed : s.connOpen = false)
    (h : Relation.ReflTransGen (SenderStep name mime payload P) s s') :
    s'.sent = s.sent ∧ s'.connOpen = false := by
  induction h with
  | refl => exact ⟨rfl, hclosed⟩
  | tail hr hstep ih =>
      obtain ⟨ihs, ihc⟩ := ih
      cases hstep with
      | sendMeta hpc ho => rw [ihc] at ho; simp at ho
      | emitChunk hpc ho => rw [ihc] at ho; simp at ho
      | emitEof hpc ho => rw [ihc] at ho; simp at ho
      | sendMetaClosed hpc ho => exact ⟨ihs, ihc⟩
      | loopEnter hpc hlt => exact ⟨ihs, ihc⟩
      | loopExit hpc hge => exact ⟨ihs, ihc⟩
      | acquire hpc hb => exact ⟨ihs, ihc⟩
      | emitChunkClosed hpc ho => exact ⟨ihs, ihc⟩
      | finalAcquire hpc hb => exact ⟨ihs, ihc⟩
      | emitEofClosed hpc ho => exact ⟨ihs, ihc⟩
      | ackArrive i => exact ⟨ihs, ihc⟩
      | closeEvt => exact ⟨ihs, rfl⟩

/-- A sender state whose channel has already been closed mid-transfer,
just before a Piece send is attempted. -/
def closedMidState : SenderState :=
  { pc := .sendChunk, offset := 0, index := 0, busy := true,
    connOpen := false,
    sent := [Msg.meta ⟨"c.bin", 3, "app", 16384⟩], acks := 0,
    sendProgress := 0, progressLog := [0] }

/-- C8, witness: attempting the Piece send on the closed channel aborts
the pipeline without handing anything further to the channel. -/
theorem c8_closed_no_further_sends_witness :
    ({ closedMidState with pc := .aborted } : SenderState).sent =
      closedMidState.sent ∧
    ({ closedMidState with pc := .aborted } : SenderState).connOpen =
      false :=
  c8_closed_no_further_sends "c.bin" "app" [1, 2, 3] 16384 closedMidState
    { closedMidState with pc := .aborted } rfl
    (Relation.ReflTransGen.single
      (SenderStep.emitChunkClosed closedMidState rfl rfl))

/-- C3: a completed sender run emits exactly `ceil(S / P)` Piece messages
(its output equals the happy-path message list), every Piece except
possibly the last carries exactly `P` bytes, and feeding the whole run to
the receiver saves exactly one artifact whose buffers concatenate, in
arrival order, back to the original payload bit for bit. -/
theorem c3_chunk_count_roundtrip (name mime : String) (payload : List Nat)
    (P : Nat) (hP : 0 < P) (s : SenderState)
    (h : SenderReach name mime payload P s) (hdone : s.pc = .done) :
    s.sent = senderMessages name mime payload P ∧
    s.sent.countP Msg.isChunk = ceilDiv payload.length P ∧
    (∀ i : Nat, i + 1 < ceilDiv payload.length P →
      (sliceChunks P payload)[i]?.map List.length = some P) ∧
    (runReceiver initRecv s.sent).saved =
      [(sliceChunks P payload, name, mime)] ∧
    (sliceChunks P payload).flatten = payload := by
  have hs := sender_done_sent name mime payload P hP s h hdone
  refine ⟨hs, ?_, ?_, ?_, sliceChunks_flatten P payload⟩
  · rw [hs, senderMessages, List.countP_cons, List.countP_append]
    have hall : List.countP Msg.isChunk (chunkMsgs P payload) =
        (chunkMsgs P payload).length :=
      List.countP_eq_length.2
        (fun a ha => chunkMsgsFrom_isChunk 0 (sliceChunks P payload) a ha)
    rw [hall, chunkMsgs, chunkMsgsFrom_length, sliceChunks_length P hP]
    simp [Msg.isChunk, List.countP_cons]
  · intro i hi
    refine sliceChunks_sizes P hP payload i ?_
    rw [sliceChunks_length P hP]
    exact hi
  · rw [hs]
    exact (receiver_run name mime payload P).1

/-- C3, witness: the completed one-piece run for payload `[7]`: one Piece
is sent and the receiver reassembles `[7]` under the sender's name. -/
theorem c3_chunk_count_roundtrip_witness :
    doneState.sent = senderMessages "f.bin" "app" [7] 16384 ∧
    doneState.sent.countP Msg.isChunk = 1 ∧
    (runReceiver initRecv doneState.sent).saved =
      [([[7]], "f.bin", "app")] := by
  have h := c3_chunk_count_roundtrip "f.bin" "app" [7] 16384 (by decide)
    doneState doneState_reach rfl
  have h7 : sliceChunks 16384 [7] = [[7]] := by simp [sliceChunks]
  refine ⟨h.1, ?_, ?_⟩
  · rw [h.2.1]
    decide
  · have hsaved := h.2.2.2.1
    rw [h7] at hsaved
    exact hsaved

/-- C4, counterexample: the claim that a Piece delivered in the Idle state
(no descriptor yet) leaves the receiver state unmutated is false: the
chunk handler pushes the payload into the buffer sequence before checking
for a descriptor, so the buffers change. -/
theorem c4_claim_false :
    initRecv.metaRef = none ∧
    (handleData initRecv (Msg.chunk 0 [1, 2, 3])).receiveBuffers ≠
      initRecv.receiveBuffers :=
  ⟨rfl, by decide⟩

/-- C4, amended: an End Marker delivered while the receiver is Idle
(`metaRef = none`) is a complete no-op, and no fatal error is raised for
either message; but a Piece delivered while Idle does mutate state: its
payload is appended to the buffer sequence, its length is added to the
received-byte counter and an acknowledgement is sent, while the reported
progress, the progress log, the saved artifacts and the descriptor slot
are unchanged. -/
theorem c4_idle_effects (s : RecvState) (i : Nat) (p : List Nat)
    (hm : s.metaRef = none) :
    handleData s Msg.eof = s ∧
    handleData s (Msg.chunk i p) =
      { s with receiveBuffers := s.receiveBuffers ++ [p],
               receivedBytes := s.receivedBytes + p.length,
               outMsgs := s.outMsgs ++ [Msg.ack (i : Int)] } :=
  ⟨handleData_eof_none s hm, handleData_chunk_none s i p hm⟩

/-- C4, witness: the amended statement evaluated in the initial (Idle)
receiver state on a three-byte Piece. -/
theorem c4_idle_effects_witness :
    handleData initRecv Msg.eof = initRecv ∧
    handleData initRecv (Msg.chunk 0 [1, 2, 3]) =
      { initRecv with receiveBuffers := [[1, 2, 3]],
                      receivedBytes := 3,
                      outMsgs := [Msg.ack 0] } := by
  have h := c4_idle_effects initRecv 0 [1, 2, 3] rfl
  refine ⟨h.1, ?_⟩
  rw [h.2]
  rfl

/-- C5: a Transfer Descriptor received in any receiver state resets the
whole transfer state: the descriptor is stored, the buffer sequence
becomes empty (no bytes retained from any prior transfer), the byte
counter becomes zero, progress is reported as 0, exactly one
acknowledgement with the distinguished index `-1` ("ready for piece 0")
is sent back, and the expected piece count becomes the ceiling of
`size / chunkSize`: the least `k` with `size ≤ chunkSize * k`. -/
theorem c5_meta_resets (s : RecvState) (m : Meta)
    (hcs : 0 < m.chunkSize) :
    (handleData s (Msg.meta m)).metaRef = some m ∧
    (handleData s (Msg.meta m)).receiveBuffers = [] ∧
    (handleData s (Msg.meta m)).receivedBytes = 0 ∧
    (handleData s (Msg.meta m)).recvProgress = 0 ∧
    (handleData s (Msg.meta m)).outMsgs = s.outMsgs ++ [Msg.ack (-1)] ∧
    (handleData s (Msg.meta m)).expectedChunks =
      ceilDiv m.size m.chunkSize ∧
    m.size ≤ m.chunkSize * (handleData s (Msg.meta m)).expectedChunks ∧
    ∀ k : Nat, m.size ≤ m.chunkSize * k →
      (handleData s (Msg.meta m)).expectedChunks ≤ k := by
  refine ⟨rfl, rfl, rfl, rfl, rfl, rfl, ?_, ?_⟩
  · exact (ceilDiv_le_iff m.size m.chunkSize _ hcs).1 le_rfl
  · intro k hk
    exact (ceilDiv_le_iff m.size m.chunkSize k hcs).2 hk

/-- A receiver state mid-transfer, holding two buffers of a previous
incomplete transfer. -/
def dirtyState : RecvState :=
  { metaRef := some ⟨"old.bin", 5, "app", 4⟩, expectedChunks := 2,
    receiveBuffers := [[1], [2]], receivedBytes := 2, recvProgress := 40,
    progressLog := [0, 40], outMsgs := [], saved := [], busy := false }

/-- C5, witness: a new descriptor arriving mid-transfer discards the two
retained buffers, zeroes the counter, and computes expected count 3 for
size 5 and piece size 2. -/
theorem c5_meta_resets_witness :
    (handleData dirtyState
      (Msg.meta ⟨"new.bin", 5, "app", 2⟩)).receiveBuffers = [] ∧
    (handleData dirtyState
      (Msg.meta ⟨"new.bin", 5, "app", 2⟩)).receivedBytes = 0 ∧
    (handleData dirtyState
      (Msg.meta ⟨"new.bin", 5, "app", 2⟩)).expectedChunks ≤ 3 := by
  have h := c5_meta_resets dirtyState ⟨"new.bin", 5, "app", 2⟩ (by decide)
  exact ⟨h.2.1, h.2.2.1, h.2.2.2.2.2.2.2 3 (by decide)⟩

/-- C6: within one transfer, the sequence of progress values reported by
the sender (in any reachable state) and the sequence reported by the
receiver (over a whole happy-path transfer) are monotonically
non-decreasing, every value lies in 0..100, and the value reported at
completion is exactly 100. -/
theorem c6_progress_monotone (name mime : String) (payload : List Nat)
    (P : Nat) (s : SenderState) (h : SenderReach name mime payload P s) :
    List.Sorted (· ≤ ·) s.progressLog ∧
    (∀ x ∈ s.progressLog, x ≤ 100) ∧
    (s.pc = .done → s.progressLog.getLast? = some 100) ∧
    List.Sorted (· ≤ ·)
      (runReceiver initRecv
        (senderMessages name mime payload P)).progressLog ∧
    (∀ x ∈ (runReceiver initRecv
        (senderMessages name mime payload P)).progressLog, x ≤ 100) ∧
    (runReceiver initRecv
        (senderMessages name mime payload P)).progressLog.getLast? =
      some 100 := by
  obtain ⟨h1, h2, h3⟩ := sender_log_shape name mime payload P s h
  obtain ⟨r1, r2, r3, r4, r5⟩ := receiver_run name mime payload P
  refine ⟨h1, h2, ?_, r2, r3, r4⟩
  intro hdone
  rw [hdone] at h3
  simp only [pcLog] at h3
  obtain ⟨l, hl⟩ := h3
  rw [hl]
  exact last_snoc l 100

/-- C6, witness: the completed one-piece run's sender log is sorted and
ends in 100. -/
theorem c6_progress_monotone_witness :
    List.Sorted (· ≤ ·) doneState.progressLog ∧
    doneState.progressLog.getLast? = some 100 := by
  have h := c6_progress_monotone "f.bin" "app" [7] 16384 doneState
    doneState_reach
  exact ⟨h.1, h.2.2.1 rfl⟩

/-- C9: the acknowledgement handler clears the sender's outstanding flag
for every inbound acknowledgement, whatever index it carries, and its
effect is identical to that of the metadata acknowledgement (index `-1`):
the index is never compared against the message awaiting
acknowledgement. -/
theorem c9_ack_clears_flag_any_index (s : RecvState) (i : Int) :
    handleData s (Msg.ack i) = { s with busy := false } ∧
    handleData s (Msg.ack i) = handleData s (Msg.ack (-1)) :=
  ⟨rfl, rfl⟩

/-- Forgetting the expected-piece-count field, to state that no handler
ever reads it. -/
def clearExpected (s : RecvState) : RecvState := { s with expectedChunks := 0 }

/-- C10: on End Marker receipt with an active descriptor the receiver
saves the artifact unconditionally — for every buffer sequence, in
particular one shorter than the expected piece count — and the
expected-piece-count field computed on descriptor receipt is never read:
every handler's result is unchanged, up to that field itself, when the
field is replaced by an arbitrary value. -/
theorem c10_eof_saves_unconditionally (s : RecvState) (m : Meta)
    (hm : s.metaRef = some m) :
    (handleData s Msg.eof).saved =
      s.saved ++ [(s.receiveBuffers, m.name, m.mime)] ∧
    ∀ msg : Msg, ∀ e : Nat,
      clearExpected (handleData { s with expectedChunks := e } msg) =
        clearExpected (handleData s msg) := by
  constructor
  · rw [handleData_eof_some s m hm]
  · intro msg e
    match msg with
    | .meta m' =>
        rw [handleData_meta, handleData_meta]
    | .chunk i p =>
        rw [handleData_chunk_some s m i p hm,
          handleData_chunk_some { s with expectedChunks := e } m i p hm]
        rfl
    | .eof =>
        rw [handleData_eof_some s m hm,
          handleData_eof_some { s with expectedChunks := e } m hm]
        rfl
    | .ack j =>
        rw [handleData_ack, handleData_ack]
        rfl

/-- A receiver state with one buffer received out of ten expected. -/
def underfilledState : RecvState :=
  { metaRef := some ⟨"p.bin", 100, "app", 10⟩, expectedChunks := 10,
    receiveBuffers := [[1, 2]], receivedBytes := 2, recvProgress := 2,
    progressLog := [0, 2], outMsgs := [], saved := [], busy := false }

/-- C10, witness: an End Marker arriving with 1 of 10 expected pieces
still saves the incomplete artifact. -/
theorem c10_eof_saves_unconditionally_witness :
    underfilledState.receiveBuffers.length ≠ underfilledState.expectedChunks ∧
    (handleData underfilledState Msg.eof).saved =
      [([[1, 2]], "p.bin", "app")] := by
  have h := c10_eof_saves_unconditionally underfilledState
    ⟨"p.bin", 100, "app", 10⟩ rfl
  refine ⟨by decide, ?_⟩
  rw [h.1]
  rfl

end FileShare
